import Mathlib

/-!
A verification development for the provenance-instrumented Datalog-to-RAM
lowering of the Souffle compiler fork under study.  The Lean definitions below
are shallow embeddings of:

* `TranslatorContext` clause numbering (`ast2ram/utility/TranslatorContext.cpp`);
* the provenance `UnitTranslator` (`ast2ram/provenance/UnitTranslator.cpp`):
  info-clause synthesis, subroutine registration, relation-descriptor
  construction, and the negation-subproof subroutine;
* the `RecursiveClauses` analysis (`ast/analysis/RecursiveClauses.cpp`);
* the `ReifyEquivalencesTransformer` (`ast/transform/ReifyEquivalences.cpp`).

Machinery that the sources consume from elsewhere in the code base
(e.g. `QualifiedName` rendering, the free `getClauseNum` utility, the value
translation strategy) is modelled from the specification and marked as such
in its doc comment.
-/

namespace Souffle

/-- Character-list prefix test, used to model souffle's `isPrefix` string
utility on variable and relation names. -/
def listPref : List Char → List Char → Bool
  | [], _ => true
  | _ :: _, [] => false
  | a :: as, b :: bs => a == b && listPref as bs

/-- `isPrefix(p, s)` of `souffle/utility/StringUtil.h`: `p` is a prefix of
`s`. -/
def strPref (p s : String) : Bool := listPref p.data s.data

namespace Ast2Ram

/-- Clause arguments, by the syntactic kind that `generateInfoClauses`'
`getArgInfo` dispatches on (`ast::Variable`, `ast::Constant`,
`ast::UnnamedVariable`, `ast::Functor`, `ast::Aggregator`, anything else).
Functor and aggregate arguments are modelled together with the list of
variable occurrences contained in their subtree, in depth-first order, which
is all the embedded code inspects of them. -/
inductive Arg
  | var (name : String)
  | cst (txt : String)
  | unnamed
  | functor (vars : List String)
  | agg (vars : List String)
  | other
  deriving DecidableEq, Repr

/-- Body literals: positive atoms, negated atoms and constraints, the three
kinds dispatched on in `UnitTranslator`. -/
inductive Literal
  | atom (rel : String) (args : List Arg)
  | neg (rel : String) (args : List Arg)
  | constraint (args : List Arg)
  deriving DecidableEq, Repr

/-- A clause: head atom (relation name and arguments) plus body literals. -/
structure Clause where
  headRel : String
  headArgs : List Arg
  body : List Literal
  deriving DecidableEq, Repr

/-- `ast::isFact`: a clause with an empty body. -/
def isFact (c : Clause) : Bool := c.body.isEmpty

/-- The analyzed program: relation names in declaration order, clauses in
declaration order. -/
structure Program where
  relations : List String
  clauses : List Clause
  deriving DecidableEq, Repr

/-- `Program::getClauses(rel)`: the clauses whose head is on `rel`, in
declaration order. -/
def getClauses (P : Program) (rel : String) : List Clause :=
  P.clauses.filter (fun c => c.headRel = rel)

/-- The memoized clause-number map of `TranslatorContext`; later entries
shadow earlier ones, modelling `std::map` assignment. -/
abbrev ClauseNumMap := List (Clause × Nat)

/-- The inner loop of the `TranslatorContext` constructor over one relation's
clauses.  The source first assigns `0` for a fact, then unconditionally
overwrites the entry with `count++`:

    if (isFact(*clause)) { clauseNums[clause] = 0; }
    clauseNums[clause] = count++;  -/
def relClauseNums (m : ClauseNumMap) (count : Nat) : List Clause → ClauseNumMap
  | [] => m
  | c :: rest =>
    let m1 := if isFact c then (c, 0) :: m else m
    relClauseNums ((c, count) :: m1) (count + 1) rest

/-- The clause-numbering map built once in the `TranslatorContext`
constructor: per relation, `count` restarts at 1. -/
def setupClauseNums (P : Program) : ClauseNumMap :=
  P.relations.foldl (fun m rel => relClauseNums m 1 (getClauses P rel)) []

/-- `TranslatorContext::getClauseNum`: look the clause up in the memoized
map; `none` models the fatal assertion for an unknown clause. -/
def getClauseNum (P : Program) (c : Clause) : Option Nat :=
  ((setupClauseNums P).find? (fun e => e.1 = c)).map (fun e => e.2)

/-! ### Info-clause synthesis (`UnitTranslator::generateInfoClauses`) -/

/-- One component of a synthesized info fact.  The source stores either a
`SignedConstant` of the clause number or a `SignedConstant` of a symbol-table
index; symbol-table indices are modelled by the interned string itself. -/
inductive InfoComp
  | num (n : Nat)
  | sym (s : String)
  deriving DecidableEq, Repr

/-- The `getArgInfo` lambda of `generateInfoClauses`: describes one clause
argument, threading the clause-scoped functor and aggregate counters;
`none` models `fatal("Unhandled argument type")`. -/
def getArgInfo (arg : Arg) (fn an : Nat) : Option (String × Nat × Nat) :=
  match arg with
  | .var n => some (n, fn, an)
  | .cst s => some (s, fn, an)
  | .unnamed => some ("_", fn, an)
  | .functor _ => some ("functor_" ++ toString fn, fn + 1, an)
  | .agg _ => some ("agg_" ++ toString an, fn, an + 1)
  | .other => none

/-- `getArgInfo` folded over an argument list, threading the counters. -/
def argInfoFold : List Arg → Nat → Nat → Option (List String × Nat × Nat)
  | [], fn, an => some ([], fn, an)
  | a :: rest, fn, an =>
    match getArgInfo a fn an with
    | none => none
    | some (s, fn1, an1) =>
      match argInfoFold rest fn1 an1 with
      | none => none
      | some (ss, fn2, an2) => some (s :: ss, fn2, an2)

/-- The body-literal loop of `generateInfoClauses`: a positive atom yields the
symbol `"<relName>,<arg0>,<arg1>,…"`, a negated atom yields `"!<relName>"`,
and any other literal kind (a constraint) falls through both
`dynamic_cast`s and is skipped without a component. -/
def bodyComps : List Literal → Nat → Nat → Option (List InfoComp × Nat × Nat)
  | [], fn, an => some ([], fn, an)
  | .atom rel args :: rest, fn, an =>
    match argInfoFold args fn an with
    | none => none
    | some (ss, fn1, an1) =>
      match bodyComps rest fn1 an1 with
      | none => none
      | some (cs, fn2, an2) =>
        some (.sym (rel ++ String.join (ss.map (fun s => "," ++ s))) :: cs, fn2, an2)
  | .neg rel _ :: rest, fn, an =>
    match bodyComps rest fn an with
    | none => none
    | some (cs, fn1, an1) => some (.sym ("!" ++ rel) :: cs, fn1, an1)
  | .constraint _ :: rest, fn, an => bodyComps rest fn an

/-- Modelled from the spec (naming only): `QualifiedName::append` and
`getConcreteRelationName` are not among the sources; per the spec the
synthetic relation is named `"<relationQualifiedName>@info<clauseNum>"`. -/
def infoRelName (c : Clause) (clauseID : Nat) : String :=
  c.headRel ++ "@info" ++ toString clauseID

/-- A synthesized info fact: the `ram::Project` target relation and the
projected components. -/
structure InfoFact where
  rel : String
  comps : List InfoComp
  deriving DecidableEq, Repr

/-- The info fact built for one non-fact clause: the clause number, the
comma-joined head-argument descriptions, then one component per recognized
body literal.  The functor/aggregate counters are clause-scoped and thread
from the head arguments through the body. -/
def infoFactFor (clauseID : Nat) (c : Clause) : Option InfoFact :=
  match argInfoFold c.headArgs 0 0 with
  | none => none
  | some (headInfos, fn, an) =>
    match bodyComps c.body fn an with
    | none => none
    | some (cs, _, _) =>
      some { rel := infoRelName c clauseID
             comps := .num clauseID :: .sym (String.intercalate "," headInfos) :: cs }

/-- The per-relation loop of `generateInfoClauses`: `clauseID` starts at 1 and
is incremented only for non-fact clauses (facts are skipped by `continue`
before the increment). -/
def genInfoList : Nat → List Clause → Option (List InfoFact)
  | _, [] => some []
  | cid, c :: rest =>
    if isFact c then genInfoList cid rest
    else
      match infoFactFor cid c with
      | none => none
      | some f =>
        match genInfoList (cid + 1) rest with
        | none => none
        | some fs => some (f :: fs)

/-- The outer loop of `generateInfoClauses` over the program's relations. -/
def genInfoAux (P : Program) : List String → Option (List InfoFact)
  | [] => some []
  | rel :: rest =>
    match genInfoList 1 (getClauses P rel) with
    | none => none
    | some fs =>
      match genInfoAux P rest with
      | none => none
      | some fs2 => some (fs ++ fs2)

/-- `UnitTranslator::generateInfoClauses`: one info fact per non-fact clause
of every relation; `none` models the fatal abort on an unhandled argument. -/
def generateInfoClauses (P : Program) : Option (List InfoFact) :=
  genInfoAux P P.relations

/-! ### Program assembly (`UnitTranslator::generateProgram`) -/

/-- Modelled from the spec: the free function `getClauseNum(program, clause)`
(declared in `ast2ram/utility/Utils.h`, not among the sources) numbers a fact
clause 0 and the other clauses of its relation 1..N in declaration order.
The walk returns 0 for a clause not in the list, standing in for the fatal
error of the real function. -/
def freeClauseNumWalk (cl : Clause) (k : Nat) : List Clause → Nat
  | [] => 0
  | c :: rest =>
    if c = cl then (if isFact c then 0 else k)
    else if isFact c then freeClauseNumWalk cl k rest
    else freeClauseNumWalk cl (k + 1) rest

/-- The clause number used for subroutine labels. -/
def specClauseNum (P : Program) (c : Clause) : Nat :=
  freeClauseNumWalk c 1 (getClauses P c.headRel)

/-- The subroutine labels registered for one visited clause by
`addProvenanceClauseSubroutines`: none for an `"info"`-prefixed head relation
name or a fact, otherwise the `_subproof` label followed by the
`_negation_subproof` label. -/
def clauseSubroutineLabels (P : Program) (c : Clause) : List String :=
  if strPref "info" c.headRel || isFact c then []
  else
    [c.headRel ++ "_" ++ toString (specClauseNum P c) ++ "_subproof",
     c.headRel ++ "_" ++ toString (specClauseNum P c) ++ "_negation_subproof"]

/-- `UnitTranslator::addProvenanceClauseSubroutines`: visit every clause of
the program in order and register its subroutines. -/
def addProvenanceClauseSubroutines (P : Program) : List String :=
  P.clauses.flatMap (clauseSubroutineLabels P)

/-- The outputs of the provenance `UnitTranslator`: the returned statement
sequence (kept abstract) and the registered subroutine labels.  There is no
field for info facts because `generateProgram` attaches them to nothing. -/
structure TranslationResult (σ : Type) where
  program : σ
  subroutineLabels : List String
  deriving DecidableEq, Repr

/-- `provenance::UnitTranslator::generateProgram`: runs the baseline
translation, *computes* the info clauses into a local that is never used
again, registers the clause subroutines, and returns the baseline sequence.
`none` models the fatal abort raised while generating info clauses. -/
def generateProgram {σ : Type} (baseline : σ) (P : Program) : Option (TranslationResult σ) :=
  match generateInfoClauses P with
  | none => none
  | some _infoClauses =>
    some { program := baseline, subroutineLabels := addProvenanceClauseSubroutines P }

/-- The clause `p(x) :- q(x).` used as the failing input for claim C2. -/
def exC2Clause : Clause :=
  { headRel := "p", headArgs := [.var "x"], body := [.atom "q" [.var "x"]] }

/-- A program with the single clause `p(x) :- q(x).` -/
def exC2Program : Program := { relations := ["p"], clauses := [exC2Clause] }

/-! ### RAM fragment and evaluation -/

/-- RAM expressions occurring in the subroutine bodies.  `extraExpr` stands
for the translation of functor/aggregate arguments, whose internal structure
none of the checked claims depends on. -/
inductive RamExpr
  | signedConstant (v : Int)
  | constSym (s : String)
  | subroutineArg (i : Nat)
  | tupleElem (tid : Nat) (elem : Nat)
  | undefValue
  | extraExpr
  deriving DecidableEq, Repr

/-- RAM conditions: existence checks, negation, and translated constraints. -/
inductive RamCond
  | existenceCheck (rel : String) (query : List RamExpr)
  | negation (c : RamCond)
  | constraintCond (args : List RamExpr)
  deriving DecidableEq, Repr

/-- RAM operations nested inside a `ram::Query`. -/
inductive RamOp
  | filter (c : RamCond) (body : RamOp)
  | subroutineReturn (exprs : List RamExpr)
  deriving DecidableEq, Repr

/-- RAM statements: queries and sequences. -/
inductive RamStmt
  | query (op : RamOp)
  | sequence (stmts : List RamStmt)
  deriving Repr

/-- The environment a subroutine runs in: the caller-supplied argument
values, an interpretation of constants, the database membership oracle for
existence checks, and an oracle for translated constraints. -/
structure SubEnv where
  argVal : Nat → Int
  constVal : String → Int
  db : String → List (Option Int) → Bool
  constraintHolds : List (Option Int) → Bool

/-- Evaluation of an expression to a column value; `none` is the undefined
marker.  A `TupleElement` never survives the variable rewrite inside a
subroutine, so it evaluates to undefined. -/
def evalExpr (env : SubEnv) : RamExpr → Option Int
  | .signedConstant v => some v
  | .constSym s => some (env.constVal s)
  | .subroutineArg i => some (env.argVal i)
  | .tupleElem _ _ => none
  | .undefValue => none
  | .extraExpr => none

/-- Evaluation of a condition. -/
def evalCond (env : SubEnv) : RamCond → Bool
  | .existenceCheck rel q => env.db rel (q.map (evalExpr env))
  | .negation c => !evalCond env c
  | .constraintCond args => env.constraintHolds (args.map (evalExpr env))

/-- Execution of an operation, collecting the returned tuples. -/
def execOp (env : SubEnv) : RamOp → List (List (Option Int))
  | .filter c b => if evalCond env c then execOp env b else []
  | .subroutineReturn es => [es.map (evalExpr env)]

mutual

/-- Execution of a statement, collecting the returned tuples. -/
def execStmt (env : SubEnv) : RamStmt → List (List (Option Int))
  | .query op => execOp env op
  | .sequence ss => execStmts env ss

/-- Execution of a statement list, concatenating the returned tuples. -/
def execStmts (env : SubEnv) : List RamStmt → List (List (Option Int))
  | [] => []
  | s :: rest => execStmt env s ++ execStmts env rest

end

/-! ### Argument-slot assignment (`makeNegationSubproofSubroutine`) -/

/-- The variable occurrences contained in one argument, in depth-first
order. -/
def argVarOccs : Arg → List String
  | .var n => [n]
  | .functor vs => vs
  | .agg vs => vs
  | _ => []

/-- The variable occurrences of one body literal. -/
def litVarOccs : Literal → List String
  | .atom _ args => args.flatMap argVarOccs
  | .neg _ args => args.flatMap argVarOccs
  | .constraint args => args.flatMap argVarOccs

/-- The variable occurrences of a clause in `visitDepthFirst` order: head
atom first, then the body literals. -/
def clauseVarOccs (c : Clause) : List String :=
  c.headArgs.flatMap argVarOccs ++ c.body.flatMap litVarOccs

/-- Pass 1 of the slot assignment: every variable in first-encounter order,
skipping variables already indexed (`isDefined`), internal level counters
(`@level_num` name prefix) and internal underscore placeholders
(`+underscore` name prefix); each kept variable receives the next slot. -/
def pass1 (defined : List String) (count : Nat) : List String → List (Nat × String)
  | [] => []
  | v :: rest =>
    if defined.contains v || strPref "@level_num" v || strPref "+underscore" v then
      pass1 defined count rest
    else (count, v) :: pass1 (v :: defined) (count + 1) rest

/-- Pass 2 of the slot assignment: every `+underscore`-marked variable
occurrence, in encounter order, appended after pass 1's slots (the source
performs no `isDefined` check in this pass). -/
def pass2 (count : Nat) : List String → List (Nat × String)
  | [] => []
  | v :: rest =>
    if strPref "+underscore" v then (count, v) :: pass2 (count + 1) rest
    else pass2 count rest

/-- The `idToVar` map (slot, variable) built by the two passes over the
clause's variable occurrences; pass 2 continues pass 1's counter. -/
def buildIdx (occs : List String) : List (Nat × String) :=
  pass1 [] 0 occs ++ pass2 (pass1 [] 0 occs).length occs

/-- The `idToVar` map of one clause's negation-subproof synthesis. -/
def clauseIdx (c : Clause) : List (Nat × String) :=
  buildIdx (clauseVarOccs c)

/-- The slot assigned to a variable (the `ValueIndex` lookup). -/
def slotOfVar (idx : List (Nat × String)) (n : String) : Option Nat :=
  (idx.find? (fun p => p.2 = n)).map (fun p => p.1)

/-- The variable assigned to a slot (the `idToVar` lookup). -/
def varOfSlot (idx : List (Nat × String)) (tid : Nat) : Option String :=
  (idx.find? (fun p => p.1 = tid)).map (fun p => p.2)

/-- A variable kept by pass 1: neither an internal level counter nor an
internal underscore placeholder. -/
def keepVar (v : String) : Bool :=
  !(strPref "@level_num" v) && !(strPref "+underscore" v)

/-- First-encounter deduplication, the specification-side description of
pass 1's ordering. -/
def firstOccAux (seen : List String) : List String → List String
  | [] => []
  | v :: rest =>
    if seen.contains v then firstOccAux seen rest
    else v :: firstOccAux (v :: seen) rest

/-- The slot assignment as §4.4 of the spec words it: the first encounters
of the kept variables, followed by every underscore occurrence, numbered
consecutively from 0. -/
def specSlots (occs : List String) : List (Nat × String) :=
  (firstOccAux [] (occs.filter keepVar) ++
    occs.filter (fun v => strPref "+underscore" v)).enum

/-! ### Negation-subproof subroutine construction -/

/-- Modelled from the spec: the value-translation strategy (the `ast2ram`
`ValueTranslator`, not among the sources) translates a variable to a
tuple-element reference at its `ValueIndex` slot (an unindexed variable —
an internal level counter — becomes the undefined marker, §4.4), a constant
to its constant expression, an unnamed variable to the undefined marker;
functor/aggregate translations are left opaque. -/
def translateValue (idx : List (Nat × String)) : Arg → RamExpr
  | .var n =>
    match slotOfVar idx n with
    | some s => .tupleElem s 0
    | none => .undefValue
  | .cst s => .constSym s
  | .unnamed => .undefValue
  | .functor _ => .extraExpr
  | .agg _ => .extraExpr
  | .other => .extraExpr

/-- The `VariablesToArguments` node mapper of
`transformVariablesToSubroutineArgs`: a tuple element whose variable is an
internal level counter becomes the undefined marker, every other tuple
element becomes a subroutine-argument reference at its tuple id; other
nodes are traversed.  (`std::map::at` aborts on a missing tuple id — by
construction every tuple id is in the map, and the missing case is modelled
as the identity.) -/
def transformExpr (idx : List (Nat × String)) : RamExpr → RamExpr
  | .tupleElem tid elem =>
    match varOfSlot idx tid with
    | some n => if strPref "@level_num" n then .undefValue else .subroutineArg tid
    | none => .tupleElem tid elem
  | .signedConstant v => .signedConstant v
  | .constSym s => .constSym s
  | .subroutineArg i => .subroutineArg i
  | .undefValue => .undefValue
  | .extraExpr => .extraExpr

/-- The node mapper applied to a condition tree. -/
def transformCond (idx : List (Nat × String)) : RamCond → RamCond
  | .existenceCheck rel q => .existenceCheck rel (q.map (transformExpr idx))
  | .negation c => .negation (transformCond idx c)
  | .constraintCond args => .constraintCond (args.map (transformExpr idx))

/-- `UnitTranslator::makeRamAtomExistenceCheck`: translate each atom
argument, rewrite its variables to subroutine arguments, pad the query with
two undefined values for the provenance columns, and test membership. -/
def makeRamAtomExistenceCheck (idx : List (Nat × String)) (rel : String)
    (args : List Arg) : RamCond :=
  .existenceCheck rel
    ((args.map (fun a => transformExpr idx (translateValue idx a))) ++
      [.undefValue, .undefValue])

/-- `UnitTranslator::makeRamReturnTrue`: return the constant 1. -/
def makeRamReturnTrue : RamOp := .subroutineReturn [.signedConstant 1]

/-- `UnitTranslator::makeRamReturnFalse`: return the constant 0. -/
def makeRamReturnFalse : RamOp := .subroutineReturn [.signedConstant 0]

/-- `UnitTranslator::makeIfStatement`: a query filtering on the condition
into the true branch, then a query filtering on the negated condition into
the false branch. -/
def makeIfStatement (c : RamCond) (t f : RamOp) : RamStmt :=
  .sequence [.query (.filter c t), .query (.filter (.negation c) f)]

/-- Modelled from the spec: the constraint-translation strategy (the
`ast2ram` `ConstraintTranslator`, not among the sources) yields a condition
over the constraint's translated argument expressions. -/
def translateConstraint (idx : List (Nat × String)) (args : List Arg) : RamCond :=
  .constraintCond (args.map (translateValue idx))

/-- A literal that is a constraint. -/
def isConstraintLit : Literal → Bool
  | .constraint _ => true
  | _ => false

/-- The literal reordering of `makeNegationSubproofSubroutine`: all
non-constraint literals first, then all constraints, relative order
preserved. -/
def reorderedLits (c : Clause) : List Literal :=
  c.body.filter (fun l => !isConstraintLit l) ++ c.body.filter isConstraintLit

/-- The independent if/return block generated for one body literal of the
negation-subproof subroutine: a positive atom returns true/false on its
existence check, a negated atom returns false/true, a constraint returns
true/false on its translated condition.  The node mapper is applied once
inside `makeRamAtomExistenceCheck` (per argument) and once more to the whole
condition at the call site, as in the source. -/
def blockForLit (idx : List (Nat × String)) : Literal → RamStmt
  | .atom rel args =>
    makeIfStatement (transformCond idx (makeRamAtomExistenceCheck idx rel args))
      makeRamReturnTrue makeRamReturnFalse
  | .neg rel args =>
    makeIfStatement (transformCond idx (makeRamAtomExistenceCheck idx rel args))
      makeRamReturnFalse makeRamReturnTrue
  | .constraint args =>
    makeIfStatement (transformCond idx (translateConstraint idx args))
      makeRamReturnTrue makeRamReturnFalse

/-- `UnitTranslator::makeNegationSubproofSubroutine`: one block per
reordered body literal, in sequence. -/
def makeNegationSubproofSubroutine (c : Clause) : RamStmt :=
  .sequence ((reorderedLits c).map (blockForLit (clauseIdx c)))

/-- The value returned by the negation-subproof block of one literal, as a
function of whether its condition evaluates true — the amended §4.4
polarity table. -/
def specLitResult (env : SubEnv) (idx : List (Nat × String)) :
    Literal → List (List (Option Int))
  | .atom rel args =>
    if evalCond env (transformCond idx (makeRamAtomExistenceCheck idx rel args))
    then [[some 1]] else [[some 0]]
  | .neg rel args =>
    if evalCond env (transformCond idx (makeRamAtomExistenceCheck idx rel args))
    then [[some 0]] else [[some 1]]
  | .constraint args =>
    if evalCond env (transformCond idx (translateConstraint idx args))
    then [[some 1]] else [[some 0]]

/-- The caller-bound value of a plain variable argument: the supplied
argument value at the variable's slot. -/
def boundArgVal (env : SubEnv) (idx : List (Nat × String)) : Arg → Option Int
  | .var n => (slotOfVar idx n).map env.argVal
  | _ => none

/-- The clause `p(x) :- q(x).` used for claim C3's counterexample. -/
def exC3Clause : Clause :=
  { headRel := "p", headArgs := [.var "x"], body := [.atom "q" [.var "x"]] }

/-- The clause `p(x) :- !r(x).` used for claim C4's witness. -/
def exC4Clause : Clause :=
  { headRel := "p", headArgs := [.var "x"], body := [.neg "r" [.var "x"]] }

/-- The clause `p(X,Y) :- q(X,Y), r(_).` of the slot-order contract, with
the unnamed variable already normalized to a `+underscore`-named variable. -/
def exC7Clause : Clause :=
  { headRel := "p", headArgs := [.var "X", .var "Y"]
    body := [.atom "q" [.var "X", .var "Y"], .atom "r" [.var "+underscore0"]] }

/-- An environment whose membership oracle always succeeds. -/
def envAllTrue : SubEnv :=
  { argVal := fun _ => 0, constVal := fun _ => 0
    db := fun _ _ => true, constraintHolds := fun _ => true }

/-- An environment whose membership oracle always fails. -/
def envDbFalse : SubEnv :=
  { argVal := fun _ => 0, constVal := fun _ => 0
    db := fun _ _ => false, constraintHolds := fun _ => true }

/-! ### Relation descriptors (`UnitTranslator::createRamRelation`) -/

/-- An AST relation as `createRamRelation` reads it: attribute
(name, type name) pairs and the representation tag; `getArity()` is the
attribute count. -/
structure AstRelation where
  name : String
  attrs : List (String × String)
  representation : String
  deriving DecidableEq, Repr

/-- A RAM relation descriptor, as built by `mk<ram::Relation>(name, arity,
auxArity, attributeNames, attributeTypeQualifiers, representation)`. -/
structure RamRelation where
  name : String
  arity : Nat
  auxArity : Nat
  attributeNames : List String
  attributeTypeQualifiers : List String
  representation : String
  deriving DecidableEq, Repr

/-- `provenance::UnitTranslator::createRamRelation`: push the base
relation's attribute names and type qualifiers (`getAttributeTypeQualifier`
abstracted as `qual`), then `@rule_number` and `@level_number` with
qualifier `"i:number"` each; the arity is the base arity plus 2 with
auxiliary arity 2. -/
def createRamRelation (qual : String → String) (base : AstRelation)
    (ramRelationName : String) : RamRelation :=
  { name := ramRelationName
    arity := base.attrs.length + 2
    auxArity := 2
    attributeNames := base.attrs.map Prod.fst ++ ["@rule_number", "@level_number"]
    attributeTypeQualifiers :=
      base.attrs.map (fun a => qual a.2) ++ ["i:number", "i:number"]
    representation := base.representation }

/-! ### Subroutine table inputs for claim C9 -/

/-- The non-fact clauses of a relation, in declaration order. -/
def nonFactClausesOf (P : Program) (rel : String) : List Clause :=
  (getClauses P rel).filter (fun c => !isFact c)

/-- Substring test over the character list, used to state that a relation
name contains no `"@info"` segment. -/
def listContainsSub (p : List Char) : List Char → Bool
  | [] => listPref p []
  | a :: rest => listPref p (a :: rest) || listContainsSub p rest

/-- `p` occurs as a substring of `s`. -/
def strContainsSub (p s : String) : Bool := listContainsSub p.data s.data

/-- A non-fact clause whose head relation name starts with `"info"` without
being a synthesized info relation (its name contains no `"@info"`). -/
def exC9Clause : Clause :=
  { headRel := "info_extra", headArgs := [.var "x"], body := [.atom "q" [.var "x"]] }

/-- A program declaring only the relation `info_extra`. -/
def exC9Program : Program :=
  { relations := ["info_extra"], clauses := [exC9Clause] }

/-- The clause `p(x) :- q(x), <constraint>.` used for claim C6: its body
holds a literal that is neither a positive nor a negated atom. -/
def exC6Clause : Clause :=
  { headRel := "p", headArgs := [.var "x"]
    body := [.atom "q" [.var "x"], .constraint [.var "x"]] }

/-- A program with the single clause `p(x) :- q(x), <constraint>.` -/
def exC6Program : Program := { relations := ["p"], clauses := [exC6Clause] }

/-- A clause whose head carries an argument of an unhandled kind. -/
def exC6BadClause : Clause :=
  { headRel := "p", headArgs := [.other], body := [.atom "q" []] }

/-- A program containing a clause with an unhandled argument kind. -/
def exC6BadProgram : Program := { relations := ["p"], clauses := [exC6BadClause] }

/-- A concrete fact clause `p().` -/
def exFact : Clause := { headRel := "p", headArgs := [], body := [] }

/-- A concrete rule clause `p() :- q().` -/
def exRule : Clause := { headRel := "p", headArgs := [], body := [.atom "q" []] }

/-- A program declaring relation `p` with the fact first, then the rule. -/
def exProgram : Program := { relations := ["p"], clauses := [exFact, exRule] }

end Ast2Ram

namespace RecClauses

/-- Relation representation tags; the analysis only tests for
`RelationRepresentation::EQREL_TYPE`. -/
inductive RelRepr
  | plain
  | eqrel
  | eqrelType
  deriving DecidableEq, Repr

/-- A relation as the analysis reads it: qualified name, representation,
and its attributes' type names in order. -/
structure Relation where
  name : String
  representation : RelRepr
  attrTypes : List String
  deriving DecidableEq, Repr

/-- A clause abstracted to what the analysis reads: the head relation name
and the relation names of its positive body atoms, in order. -/
structure Clause where
  headRel : String
  bodyAtoms : List String
  deriving DecidableEq, Repr

/-- The program seen by the analysis. -/
structure Program where
  relations : List Relation
  clauses : List Clause
  deriving DecidableEq, Repr

/-- `Program::getRelation(name)`: the first declared relation with that
name. -/
def lookupRel (P : Program) (n : String) : Option Relation :=
  P.relations.find? (fun r => r.name = n)

/-- The relation pointer obtained from a lookup, identified by its name
(`none` models the null pointer; `getRelation` always returns the same
pointer for the same name, so name equality models pointer equality). -/
def lookupPtr (P : Program) (n : String) : Option String :=
  (lookupRel P n).map (fun r => r.name)

/-- The eqrel edges pushed while processing one reached relation: for each
attribute whose type name resolves to a relation with representation
`EQREL_TYPE`, an edge to that relation. -/
def eqrelEdges (P : Program) (r : Relation) : List (Option String) :=
  r.attrTypes.filterMap (fun t =>
    match lookupRel P t with
    | some e =>
      if e.representation = RelRepr.eqrelType then some (some e.name) else none
    | none => none)

/-- The clause edges pushed while processing one reached relation: the
looked-up body-atom relations of all the relation's clauses. -/
def clauseEdges (P : Program) (r : Relation) : List (Option String) :=
  (P.clauses.filter (fun c => c.headRel = r.name)).flatMap
    (fun c => c.bodyAtoms.map (fun a => lookupPtr P a))

/-- All successor pointers pushed while processing one relation.  The
source checks each candidate against the target and returns true before
pushing it; that early return is folded into a membership test on this
list, which does not change the computed boolean. -/
def succEdges (P : Program) (r : Relation) : List (Option String) :=
  eqrelEdges P r ++ clauseEdges P r

/-- The names of the declared relations. -/
def relNames (P : Program) : List String := P.relations.map (fun r => r.name)

/-- The worklist loop of `RecursiveClausesAnalysis::computeIsRecursive`:
pop an entry, skip null pointers and already-reached relations, otherwise
mark the relation reached, test its successor edges against the target, and
push them.  (The C++ `back`/`pop_back` stack order is modelled by popping
the list head; the popping order does not affect the result.) -/
def loopSearch (P : Program) (trg : Option String) :
    List String → List (Option String) → Bool
  | _, [] => false
  | reached, none :: rest => loopSearch P trg reached rest
  | reached, some n :: rest =>
    if hmem : n ∈ reached then loopSearch P trg reached rest
    else
      match hrel : lookupRel P n with
      | none => loopSearch P trg reached rest
      | some r =>
        if trg ∈ succEdges P r then true
        else loopSearch P trg (n :: reached) (rest ++ succEdges P r)
termination_by reached wl =>
  (((relNames P).filter (fun m => ¬ m ∈ reached)).length, wl.length)
decreasing_by
  · apply Prod.Lex.right
    simp
  · apply Prod.Lex.right
    simp
  · apply Prod.Lex.right
    simp
  · apply Prod.Lex.left
    have hn : n ∈ relNames P := by
      have hfind : r ∈ P.relations := List.mem_of_find?_eq_some hrel
      have hname : r.name = n := by
        have := List.find?_some hrel
        simpa using this
      rw [relNames]
      exact hname ▸ List.mem_map_of_mem (fun s => s.name) hfind
    have key : ∀ L : List String, n ∈ L →
        (L.filter (fun m => decide (¬ m ∈ n :: reached))).length <
        (L.filter (fun m => decide (¬ m ∈ reached))).length := by
      intro L hL
      induction L with
      | nil => cases hL
      | cons a t ih =>
        by_cases ha : a = n
        · subst ha
          have hle : (t.filter (fun m => decide (¬ m ∈ a :: reached))).length ≤
              (t.filter (fun m => decide (¬ m ∈ reached))).length :=
            List.Sublist.length_le
              (List.monotone_filter_right t (fun x hx => by
                simp only [decide_eq_true_eq] at hx ⊢
                exact fun hc => hx (List.mem_cons_of_mem a hc)))
          rw [List.filter_cons_of_neg (by simp), List.filter_cons_of_pos (by simpa using hmem)]
          simp only [List.length_cons]
          omega
        · rcases List.mem_cons.mp hL with heq | ht
          · exact absurd heq.symm ha
          · have hiht := ih ht
            by_cases haR : a ∈ reached
            · rw [List.filter_cons_of_neg (by simp [haR]),
                List.filter_cons_of_neg (by simp [haR])]
              exact hiht
            · rw [List.filter_cons_of_pos (by simp [List.mem_cons, ha, haR]),
                List.filter_cons_of_pos (by simp [haR])]
              simp only [List.length_cons]
              omega
    exact key (relNames P) hn

/-- The looked-up relations of the clause's body atoms — the initial
worklist of `computeIsRecursive`. -/
def bodyAtomPtrs (P : Program) (c : Clause) : List (Option String) :=
  c.bodyAtoms.map (fun a => lookupPtr P a)

/-- `RecursiveClausesAnalysis::computeIsRecursive`: return true at once if a
body atom's relation equals the clause's head relation (the set-up loop's
early return, folded into a membership test), otherwise run the worklist. -/
def computeIsRecursive (P : Program) (c : Clause) : Bool :=
  if lookupPtr P c.headRel ∈ bodyAtomPtrs P c then true
  else loopSearch P (lookupPtr P c.headRel) [] (bodyAtomPtrs P c)

/-- `TranslatorContext::isRecursiveClause` delegates to the memoized
analysis result, which is `computeIsRecursive` of the clause. -/
def isRecursiveClause (P : Program) (c : Clause) : Bool := computeIsRecursive P c

/-- Reachability along the analysis's edges: the target pointer reaches
itself, and a declared relation reaches the target whenever one of its
successor edges (an `EQREL_TYPE`-typed attribute edge, or a body atom of
one of its clauses) reaches it. -/
inductive Reaches (P : Program) (trg : Option String) : Option String → Prop
  | refl : Reaches P trg trg
  | step {n : String} {r : Relation} {q : Option String} :
      lookupRel P n = some r → q ∈ succEdges P r → Reaches P trg q →
      Reaches P trg (some n)

/-- The completeness invariant of the worklist loop: the target is not on
the worklist, and every reached relation has been fully processed — it is
declared, its successor edges miss the target, and every successor is null,
still on the worklist, or itself reached. -/
def LoopInv (P : Program) (trg : Option String) (reached : List String)
    (wl : List (Option String)) : Prop :=
  (¬ trg ∈ wl) ∧
  ∀ n ∈ reached, some n ≠ trg ∧ ∃ r, lookupRel P n = some r ∧
    (¬ trg ∈ succEdges P r) ∧
    ∀ q ∈ succEdges P r, q = none ∨ q ∈ wl ∨ ∃ m, q = some m ∧ m ∈ reached

end RecClauses

namespace Reify

/-- AST type declarations as the transformer dispatches on them: eqrel
types, poset types, and every other kind of type. -/
inductive TypeDecl
  | eqrel (name aliasName : String)
  | poset (name aliasName : String)
  | other (name : String)
  deriving DecidableEq, Repr

/-- Relation representation tags set by the transformer
(`RelationRepresentation::EQREL` / `::DEFAULT`). -/
inductive RelRepr
  | eqrelRep
  | defaultRep
  deriving DecidableEq, Repr

/-- Relation qualifiers; the transformer only adds
`RelationQualifier::TYPE`. -/
inductive RelQual
  | typeQual
  deriving DecidableEq, Repr

/-- A relation attribute: name and type name. -/
structure Attribute where
  name : String
  typeName : String
  deriving DecidableEq, Repr

/-- A relation declaration. -/
structure Relation where
  name : String
  representation : RelRepr
  quals : List RelQual
  attrs : List Attribute
  deriving DecidableEq, Repr

/-- Atom arguments built by the transformer: a variable, or the intrinsic
functor `canonicalize` applied to the named variable. -/
inductive RArg
  | var (n : String)
  | canonOf (varName : String)
  deriving DecidableEq, Repr

/-- An atom. -/
structure Atom where
  rel : String
  args : List RArg
  deriving DecidableEq, Repr

/-- A clause (`subsumptive` marks an `ast::SubsumptiveClause`). -/
structure Clause where
  head : Atom
  body : List Atom
  subsumptive : Bool
  deriving DecidableEq, Repr

/-- The program as the transformer reads and mutates it. -/
structure Program where
  types : List TypeDecl
  relations : List Relation
  clauses : List Clause
  deriving DecidableEq, Repr

/-- `Program::addRelation` appends the relation. -/
def addRelation (P : Program) (r : Relation) : Program :=
  { P with relations := P.relations ++ [r] }

/-- `Program::addClause` appends the clause. -/
def addClause (P : Program) (c : Clause) : Program :=
  { P with clauses := P.clauses ++ [c] }

/-- The equivalence relation created for a type: EQREL representation, TYPE
qualifier, attributes `x` and `y` of the given type. -/
def typeEqrelRelation (relName typeName : String) : Relation :=
  { name := relName, representation := .eqrelRep, quals := [.typeQual]
    attrs := [{ name := "x", typeName := typeName },
              { name := "y", typeName := typeName }] }

/-- The partial-order relation created for a poset type: DEFAULT
representation, TYPE qualifier, attributes `x` and `y`. -/
def posetRelation (typeName : String) : Relation :=
  { name := typeName, representation := .defaultRep, quals := [.typeQual]
    attrs := [{ name := "x", typeName := typeName },
              { name := "y", typeName := typeName }] }

/-- The reflexive partial-order rule `T(x, x) :- T_eqrel(x, _x).`
(`QualifiedName::append` of the `"_eqrel"` suffix, not among the sources,
is rendered by string concatenation; the rendering is irrelevant to the
checked claim). -/
def posetReflexiveClause (typeName : String) : Clause :=
  { head := { rel := typeName, args := [.var "x", .var "x"] }
    body := [{ rel := typeName ++ "_eqrel", args := [.var "x", .var "_x"] }]
    subsumptive := false }

/-- The accumulated state of the transformer's type loop. -/
structure LoopState where
  prog : Program
  eqrels : List String
  posets : List String
  changed : Bool
  deriving DecidableEq, Repr

/-- One iteration of the type loop: an eqrel type creates its relation and
is recorded; a poset type creates its `_eqrel` relation, its partial-order
relation and the reflexive rule, and is recorded; both set `changed`
(`changed |= true`); any other type is skipped by `continue`. -/
def processType (st : LoopState) (t : TypeDecl) : LoopState :=
  match t with
  | .eqrel name _ =>
    { prog := addRelation st.prog (typeEqrelRelation name name)
      eqrels := name :: st.eqrels
      posets := st.posets
      changed := st.changed || true }
  | .poset name _ =>
    { prog := addClause
        (addRelation (addRelation st.prog (typeEqrelRelation (name ++ "_eqrel") name))
          (posetRelation name))
        (posetReflexiveClause name)
      eqrels := st.eqrels
      posets := name :: st.posets
      changed := st.changed || true }
  | .other _ => st

/-- The transformer's loop over the program's type declarations. -/
def typeLoop (st : LoopState) : List TypeDecl → LoopState
  | [] => st
  | t :: rest => typeLoop (processType st t) rest

/-- The per-attribute accumulation of the rule-construction loop: the
`lt` argument, the `gt` argument, and the extra body atoms contributed by
one attribute, in order. -/
def attrArgs (eqrels posets : List String) :
    List Attribute → (List RArg × List RArg × List Atom)
  | [] => ([], [], [])
  | attr :: rest =>
    let (lts, gts, elems) := attrArgs eqrels posets rest
    if attr.typeName ∈ eqrels then
      (.var attr.name :: lts, .canonOf attr.name :: gts,
        { rel := attr.typeName,
          args := [.var attr.name, .var ("_" ++ attr.name)] } :: elems)
    else if attr.typeName ∈ posets then
      (.var attr.name :: lts, .canonOf (attr.name ++ "_above") :: gts,
        { rel := attr.typeName,
          args := [.var attr.name, .var ("_" ++ attr.name)] } ::
        { rel := attr.typeName,
          args := [.var attr.name, .var (attr.name ++ "_above")] } :: elems)
    else
      (.var attr.name :: lts, .var attr.name :: gts, elems)

/-- Some attribute of the relation is typed by an eqrel or poset type. -/
def hasEquivalence (eqrels posets : List String) (r : Relation) : Bool :=
  r.attrs.any (fun a => a.typeName ∈ eqrels || a.typeName ∈ posets)

/-- The insertion rule: head `gt`, body `lt` followed by the extra atoms. -/
def insertClauseFor (eqrels posets : List String) (r : Relation) : Clause :=
  let (lts, gts, elems) := attrArgs eqrels posets r.attrs
  { head := { rel := r.name, args := gts }
    body := { rel := r.name, args := lts } :: elems
    subsumptive := false }

/-- The subsumption rule: head `lt`, body `lt` then `gt` (two
`addToBodyFront` calls). -/
def canonicalizeClauseFor (eqrels posets : List String) (r : Relation) : Clause :=
  let (lts, gts, _) := attrArgs eqrels posets r.attrs
  { head := { rel := r.name, args := lts }
    body := [{ rel := r.name, args := lts }, { rel := r.name, args := gts }]
    subsumptive := true }

/-- One iteration of the rule-construction loop over the relations:
eqrel/poset type relations themselves are skipped; a relation with an
eqrel- or poset-typed attribute gains the insertion rule and then the
subsumption rule. -/
def processRel (eqrels posets : List String) (prog : Program) (r : Relation) :
    Program :=
  if r.name ∈ eqrels then prog
  else if r.name ∈ posets then prog
  else if hasEquivalence eqrels posets r then
    addClause (addClause prog (insertClauseFor eqrels posets r))
      (canonicalizeClauseFor eqrels posets r)
  else prog

/-- The rule-construction loop over the relation list. -/
def relLoop (eqrels posets : List String) (prog : Program) :
    List Relation → Program
  | [] => prog
  | r :: rest => relLoop eqrels posets (processRel eqrels posets prog r) rest

/-- `ReifyEquivalencesTransformer::transform`: run the type loop, then the
rule-construction loop over the (possibly extended) relation list; return
the changed flag and the transformed program. -/
def reifyTransform (P : Program) : Bool × Program :=
  let st := typeLoop { prog := P, eqrels := [], posets := [], changed := false } P.types
  (st.changed, relLoop st.eqrels st.posets st.prog st.prog.relations)

/-- The type declarations that set the changed flag. -/
def isEqrelOrPoset : TypeDecl → Bool
  | .eqrel _ _ => true
  | .poset _ _ => true
  | .other _ => false

/-- A program declaring one ordinary type and one ordinary relation. -/
def exReifyProgram : Program :=
  { types := [.other "T"]
    relations := [{ name := "r", representation := .defaultRep, quals := []
                    attrs := [{ name := "a", typeName := "T" }] }]
    clauses := [] }

end Reify

namespace Theorems

open Ast2Ram

/-- Claim C1.  The claim says `getClauseNum` returns 0 for a fact and the
1-based index among the relation's non-fact clauses otherwise.  The code
contradicts this: the fact branch `clauseNums[clause] = 0` is a dead store,
unconditionally overwritten by `clauseNums[clause] = count++`, so in a
program whose relation `p` holds the fact `p().` followed by the rule
`p() :- q().`, the fact is numbered 1 and the rule 2 (not 0 and 1). -/
theorem clauseNums_fact_numbered :
    getClauseNum exProgram exFact = some 1 ∧
    getClauseNum exProgram exRule = some 2 ∧
    isFact exFact = true ∧ isFact exRule = false := by
  decide

/-- Claim C2.  The claim says `generateProgram` returns the baseline sequence
unchanged *and* attaches the synthesized info facts as outputs.  The first
part holds, and `generateInfoClauses` does build exactly one fact per
non-fact clause, projected into `"<rel>@info<clauseNum>"` — but the result of
`generateInfoClauses` is bound to a local and dropped, so no output of
`generateProgram` carries the info facts: for the program `p(x) :- q(x).`
the synthesized fact `p@info1(1, "x", "q,x")` exists, yet the translation
result consists of the baseline and the subroutine labels only. -/
theorem generateProgram_drops_info_clauses :
    generateInfoClauses exC2Program =
      some [{ rel := "p@info1", comps := [.num 1, .sym "x", .sym "q,x"] }] ∧
    (∀ baseline : Nat, generateProgram baseline exC2Program =
      some { program := baseline
             subroutineLabels := ["p_1_subproof", "p_1_negation_subproof"] }) := by
  constructor
  · decide
  · intro baseline
    rfl

/-- Folding `getArgInfo` over a list containing an unhandled argument kind
aborts, whatever the counter state. -/
theorem argInfoFold_none (args : List Arg) (fn an : Nat) (h : Arg.other ∈ args) :
    argInfoFold args fn an = none := by
  induction args generalizing fn an with
  | nil => cases h
  | cons a rest ih =>
    rcases List.mem_cons.mp h with rfl | hmem
    · rfl
    · cases hg : getArgInfo a fn an with
      | none => simp [argInfoFold, hg]
      | some v =>
        obtain ⟨s, fn1, an1⟩ := v
        simp [argInfoFold, hg, ih fn1 an1 hmem]

/-- A clause with an unhandled head argument yields no info fact. -/
theorem infoFactFor_none (cid : Nat) (c : Clause) (h : Arg.other ∈ c.headArgs) :
    infoFactFor cid c = none := by
  simp [infoFactFor, argInfoFold_none c.headArgs 0 0 h]

/-- The per-relation info loop aborts as soon as it meets a non-fact clause
with an unhandled head argument. -/
theorem genInfoList_none (cls : List Clause) (c : Clause) (cid : Nat)
    (hmem : c ∈ cls) (hf : isFact c = false) (harg : Arg.other ∈ c.headArgs) :
    genInfoList cid cls = none := by
  induction cls generalizing cid with
  | nil => cases hmem
  | cons c0 rest ih =>
    rcases List.mem_cons.mp hmem with rfl | hmem0
    · simp [genInfoList, hf, infoFactFor_none cid c harg]
    · cases hfc : isFact c0 with
      | true => simp [genInfoList, hfc, ih cid hmem0]
      | false =>
        cases hg : infoFactFor cid c0 with
        | none => simp [genInfoList, hfc, hg]
        | some f => simp [genInfoList, hfc, hg, ih (cid + 1) hmem0]

/-- The outer info loop aborts when any relation's inner loop aborts. -/
theorem genInfoAux_none (P : Program) (rels : List String) (rel : String)
    (hmem : rel ∈ rels) (h : genInfoList 1 (getClauses P rel) = none) :
    genInfoAux P rels = none := by
  induction rels with
  | nil => cases hmem
  | cons r rest ih =>
    rcases List.mem_cons.mp hmem with rfl | hmem0
    · simp [genInfoAux, h]
    · cases hg : genInfoList 1 (getClauses P r) with
      | none => simp [genInfoAux, hg]
      | some fs => simp [genInfoAux, hg, ih hmem0]

/-- Claim C6 counterexample.  The claim says any body-literal kind other than
a positive or negated atom is a fatal compilation error.  On the concrete
clause `p(x) :- q(x), <constraint>.` the code instead *silently skips* the
constraint literal: info-clause synthesis succeeds and emits the fact
`p@info1(1, "x", "q,x")`, which simply omits the constraint. -/
theorem info_constraint_literal_skipped_cex :
    generateInfoClauses exC6Program =
      some [{ rel := "p@info1", comps := [.num 1, .sym "x", .sym "q,x"] }] ∧
    generateInfoClauses exC6Program ≠ none := by
  decide

/-- Claim C6, amended.  During info-clause synthesis, a clause argument that
is not a variable, constant, unnamed variable, functor, or aggregate is a
fatal, unrecoverable abort with no partial fact emitted (the whole
`generateInfoClauses` result is `none`); a body literal that is neither a
positive atom nor a negated atom (a constraint) is, however, silently
skipped, contributing no component to the clause's info fact. -/
theorem info_unsupported_argument_fatal (P : Program) (rel : String) (c : Clause)
    (hrel : rel ∈ P.relations) (hc : c ∈ getClauses P rel)
    (hf : isFact c = false) (harg : Arg.other ∈ c.headArgs) :
    (∀ fn an, getArgInfo .other fn an = none) ∧
    generateInfoClauses P = none ∧
    (∀ args rest fn an, bodyComps (.constraint args :: rest) fn an = bodyComps rest fn an) := by
  refine ⟨fun fn an => rfl, ?_, fun args rest fn an => rfl⟩
  exact genInfoAux_none P P.relations rel hrel (genInfoList_none _ c 1 hc hf harg)

/-- Witness for `info_unsupported_argument_fatal` on a concrete program whose
only clause carries an unhandled head argument. -/
theorem info_unsupported_argument_fatal_witness :
    generateInfoClauses exC6BadProgram = none :=
  (info_unsupported_argument_fatal exC6BadProgram "p" exC6BadClause
    (by decide) (by decide) (by decide) (by decide)).2.1

/-- Executing `makeIfStatement` returns the true branch's tuples when the
condition holds and the false branch's tuples otherwise. -/
theorem execStmt_makeIfStatement (env : SubEnv) (c : RamCond) (t f : RamOp) :
    execStmt env (makeIfStatement c t f) =
      if evalCond env c then execOp env t else execOp env f := by
  cases h : evalCond env c <;>
    simp [makeIfStatement, execStmt, execStmts, execOp, evalCond, h]

/-- Each block of the negation-subproof subroutine returns the value given
by the (amended) polarity table. -/
theorem blockForLit_exec (env : SubEnv) (idx : List (Nat × String)) (lit : Literal) :
    execStmt env (blockForLit idx lit) = specLitResult env idx lit := by
  cases lit <;>
    simp [blockForLit, specLitResult, execStmt_makeIfStatement, execOp,
      makeRamReturnTrue, makeRamReturnFalse, evalExpr]

/-- Executing the mapped blocks of a literal list concatenates the per-block
results. -/
theorem execStmts_blocks (env : SubEnv) (idx : List (Nat × String)) (lits : List Literal) :
    execStmts env (lits.map (blockForLit idx)) =
      lits.flatMap (specLitResult env idx) := by
  induction lits with
  | nil => rfl
  | cons l rest ih => simp [execStmts, blockForLit_exec, ih]

/-- `enumFrom` distributes over append. -/
theorem enumFrom_append_eq {α : Type} (l₁ l₂ : List α) (n : Nat) :
    List.enumFrom n (l₁ ++ l₂) =
      List.enumFrom n l₁ ++ List.enumFrom (n + l₁.length) l₂ := by
  induction l₁ generalizing n with
  | nil => simp [List.enumFrom]
  | cons a rest ih =>
    have harith : n + 1 + rest.length = n + (rest.length + 1) := by omega
    simp [List.enumFrom, ih (n + 1), harith]

/-- The second components of `enumFrom` recover the list. -/
theorem map_snd_enumFrom {α : Type} (l : List α) (n : Nat) :
    (List.enumFrom n l).map Prod.snd = l := by
  induction l generalizing n with
  | nil => rfl
  | cons a rest ih => simp [List.enumFrom, ih]

/-- The first components of `enumFrom` are the consecutive indices. -/
theorem map_fst_enumFrom {α : Type} (l : List α) (n : Nat) :
    (List.enumFrom n l).map Prod.fst = List.range' n l.length := by
  induction l generalizing n with
  | nil => rfl
  | cons a rest ih => simp [List.enumFrom, ih, List.range'_succ]

/-- The length of `enumFrom`. -/
theorem length_enumFrom_eq {α : Type} (l : List α) (n : Nat) :
    (List.enumFrom n l).length = l.length := by
  induction l generalizing n with
  | nil => rfl
  | cons a rest ih => simp [List.enumFrom, ih]

/-- Pass 1 enumerates, from `count`, the first encounters of the kept
variables. -/
theorem pass1_eq (occs : List String) (defined : List String) (count : Nat) :
    pass1 defined count occs =
      List.enumFrom count (firstOccAux defined (occs.filter keepVar)) := by
  induction occs generalizing defined count with
  | nil => rfl
  | cons v rest ih =>
    by_cases hd : v ∈ defined <;>
      cases hlv : strPref "@level_num" v <;> cases hus : strPref "+underscore" v <;>
        simp [pass1, firstOccAux, keepVar, hlv, hus, hd, List.filter_cons,
          List.enumFrom, ih]

/-- Pass 2 enumerates, from `count`, the underscore occurrences. -/
theorem pass2_eq (occs : List String) (count : Nat) :
    pass2 count occs =
      List.enumFrom count (occs.filter (fun v => strPref "+underscore" v)) := by
  induction occs generalizing count with
  | nil => rfl
  | cons v rest ih =>
    cases hus : strPref "+underscore" v <;>
      simp [pass2, hus, List.filter_cons, List.enumFrom, ih]

/-- The two-pass `idToVar` construction equals the spec-side slot listing. -/
theorem buildIdx_eq (occs : List String) : buildIdx occs = specSlots occs := by
  rw [buildIdx, specSlots, pass1_eq, pass2_eq, List.enum_eq_enumFrom,
    enumFrom_append_eq, length_enumFrom_eq]
  simp

/-- A member of `firstOccAux seen l` is not in `seen`. -/
theorem mem_firstOccAux_not_seen {l seen : List String} {v : String}
    (h : v ∈ firstOccAux seen l) : ¬ v ∈ seen := by
  induction l generalizing seen with
  | nil => cases h
  | cons a rest ih =>
    by_cases hc : a ∈ seen
    · exact ih (by simpa [firstOccAux, hc] using h)
    · have h2 : v ∈ a :: firstOccAux (a :: seen) rest := by
        simpa [firstOccAux, hc] using h
      rcases List.mem_cons.mp h2 with rfl | hmem
      · exact hc
      · intro hv
        exact ih hmem (List.mem_cons_of_mem a hv)

/-- A member of `firstOccAux seen l` is a member of `l`. -/
theorem mem_firstOccAux_mem {l seen : List String} {v : String}
    (h : v ∈ firstOccAux seen l) : v ∈ l := by
  induction l generalizing seen with
  | nil => cases h
  | cons a rest ih =>
    by_cases hc : a ∈ seen
    · exact List.mem_cons_of_mem a (ih (by simpa [firstOccAux, hc] using h))
    · have h2 : v ∈ a :: firstOccAux (a :: seen) rest := by
        simpa [firstOccAux, hc] using h
      rcases List.mem_cons.mp h2 with rfl | hmem
      · exact List.mem_cons_self v rest
      · exact List.mem_cons_of_mem a (ih hmem)

/-- `firstOccAux` produces a duplicate-free list. -/
theorem firstOccAux_nodup (l seen : List String) : (firstOccAux seen l).Nodup := by
  induction l generalizing seen with
  | nil => simp [firstOccAux]
  | cons a rest ih =>
    by_cases hc : a ∈ seen
    · simpa [firstOccAux, hc] using ih seen
    · have h2 : firstOccAux seen (a :: rest) = a :: firstOccAux (a :: seen) rest := by
        simp [firstOccAux, hc]
      rw [h2]
      exact List.nodup_cons.mpr
        ⟨fun hmem => mem_firstOccAux_not_seen hmem (List.mem_cons_self a seen), ih _⟩

/-- The slots of the `idToVar` map are pairwise distinct. -/
theorem buildIdx_fst_nodup (occs : List String) :
    ((buildIdx occs).map Prod.fst).Nodup := by
  rw [buildIdx_eq, specSlots, List.enum_eq_enumFrom, map_fst_enumFrom]
  apply List.nodup_range'
  simp

/-- When the underscore occurrences are distinct, each variable of the
`idToVar` map receives exactly one slot. -/
theorem buildIdx_snd_nodup (occs : List String)
    (hund : (occs.filter (fun v => strPref "+underscore" v)).Nodup) :
    ((buildIdx occs).map Prod.snd).Nodup := by
  rw [buildIdx_eq, specSlots, List.enum_eq_enumFrom, map_snd_enumFrom]
  refine List.Nodup.append (firstOccAux_nodup _ _) hund ?_
  intro v hv hv2
  have h1 : v ∈ occs.filter keepVar := mem_firstOccAux_mem hv
  have h2 : keepVar v = true := List.of_mem_filter h1
  have h3 : strPref "+underscore" v = true := by
    have := List.of_mem_filter hv2
    simpa using this
  simp [keepVar, h3] at h2

/-- A successful variable-to-slot lookup inverts to a slot-to-variable
lookup, because the slots are pairwise distinct. -/
theorem varOfSlot_of_slotOfVar (occs : List String) (n : String) (s : Nat)
    (h : slotOfVar (buildIdx occs) n = some s) :
    varOfSlot (buildIdx occs) s = some n := by
  rw [slotOfVar] at h
  cases hf : List.find? (fun p => p.2 = n) (buildIdx occs) with
  | none => rw [hf] at h; cases h
  | some p =>
    rw [hf] at h
    have hmem : p ∈ buildIdx occs := List.mem_of_find?_eq_some hf
    have hpn : p.2 = n := by simpa using List.find?_some hf
    have hps : p.1 = s := by simpa using h
    rw [varOfSlot]
    cases hg : List.find? (fun q => q.1 = s) (buildIdx occs) with
    | none =>
      exfalso
      have := List.find?_eq_none.mp hg p hmem
      simp [hps] at this
    | some q =>
      have hqmem : q ∈ buildIdx occs := List.mem_of_find?_eq_some hg
      have hqs : q.1 = s := by simpa using List.find?_some hg
      have hinj := List.inj_on_of_nodup_map (buildIdx_fst_nodup occs)
      have : q = p := hinj hqmem hmem (by rw [hqs, hps])
      simp [this, hpn]

/-- Claim C3 counterexample.  The claim's polarity table says the
negation-subproof block for a *positive* body atom returns 0 when the
atom's existence check succeeds.  For the concrete clause `p(x) :- q(x).`
under an environment where every existence check succeeds, the generated
negation-subproof subroutine (whose single block is the one for the positive
atom `q(x)`) returns 1, not 0. -/
theorem negation_subproof_atom_polarity_cex :
    execStmt envAllTrue (makeNegationSubproofSubroutine exC3Clause) = [[some 1]] ∧
    execStmt envAllTrue (makeNegationSubproofSubroutine exC3Clause) ≠ [[some 0]] := by
  have h : execStmt envAllTrue (makeNegationSubproofSubroutine exC3Clause) = [[some 1]] := by
    rw [makeNegationSubproofSubroutine]
    show execStmts envAllTrue _ = _
    rw [execStmts_blocks]
    rfl
  exact ⟨h, by rw [h]; decide⟩

/-- Claim C3, amended.  Per-literal polarity of the negation-subproof
subroutine: the subroutine is the sequence of one independent if/return
block per reordered body literal, and the block for a positive atom returns
1 when its existence check succeeds and 0 when it fails, while the block for
a negated atom returns 0 when the existence check succeeds and 1 when it
fails (the transposition of the claimed table rows; constraints return 1/0
on their condition). -/
theorem negation_subproof_block_polarity (c : Clause) (env : SubEnv) :
    execStmt env (makeNegationSubproofSubroutine c) =
      (reorderedLits c).flatMap (specLitResult env (clauseIdx c)) := by
  rw [makeNegationSubproofSubroutine]
  show execStmts env _ = _
  rw [execStmts_blocks]

/-- Claim C4.  For a negated body literal `!r(X)` of a clause, all of whose
arguments are plain slot-assigned variables, the negation-subproof block
generated for that literal returns 0 when the tuple for `r(X)` under the
supplied binding (padded with two undefined provenance columns) is present
in relation `r`, and 1 when it is not present. -/
theorem negated_literal_block_semantics (c : Clause) (env : SubEnv) (rel : String)
    (args : List Arg) (hmem : Literal.neg rel args ∈ reorderedLits c)
    (hargs : ∀ a ∈ args, ∃ n s, a = Arg.var n ∧
      slotOfVar (clauseIdx c) n = some s ∧ strPref "@level_num" n = false) :
    execStmt env (blockForLit (clauseIdx c) (.neg rel args)) =
      if env.db rel (args.map (boundArgVal env (clauseIdx c)) ++ [none, none])
      then [[some 0]] else [[some 1]] := by
  have harg : ∀ a ∈ args,
      evalExpr env (transformExpr (clauseIdx c) (transformExpr (clauseIdx c)
        (translateValue (clauseIdx c) a))) = boundArgVal env (clauseIdx c) a := by
    intro a ha
    obtain ⟨n, s, rfl, hslot, hlev⟩ := hargs a ha
    have hv : varOfSlot (clauseIdx c) s = some n :=
      varOfSlot_of_slotOfVar (clauseVarOccs c) n s hslot
    simp [translateValue, hslot, transformExpr, hv, hlev, evalExpr, boundArgVal]
  have hquery : (((args.map (fun a =>
      transformExpr (clauseIdx c) (translateValue (clauseIdx c) a))) ++
      [RamExpr.undefValue, RamExpr.undefValue]).map
        (transformExpr (clauseIdx c))).map (evalExpr env) =
      args.map (boundArgVal env (clauseIdx c)) ++ [none, none] := by
    rw [List.map_append, List.map_append]
    congr 1
    rw [List.map_map, List.map_map]
    apply List.map_congr_left
    intro a ha
    exact harg a ha
  rw [blockForLit, execStmt_makeIfStatement]
  have hcond : evalCond env (transformCond (clauseIdx c)
      (makeRamAtomExistenceCheck (clauseIdx c) rel args)) =
      env.db rel (args.map (boundArgVal env (clauseIdx c)) ++ [none, none]) := by
    simp only [makeRamAtomExistenceCheck, transformCond, evalCond]
    rw [hquery]
  rw [hcond]
  cases env.db rel (args.map (boundArgVal env (clauseIdx c)) ++ [none, none]) <;>
    simp [execOp, makeRamReturnTrue, makeRamReturnFalse, evalExpr]

/-- Witness for `negated_literal_block_semantics` on the clause
`p(x) :- !r(x).` under an environment whose membership oracle fails. -/
theorem negated_literal_block_semantics_witness :
    execStmt envDbFalse (blockForLit (clauseIdx exC4Clause) (.neg "r" [.var "x"])) =
      [[some 1]] := by
  have hargs : ∀ a ∈ [Arg.var "x"], ∃ n s, a = Arg.var n ∧
      slotOfVar (clauseIdx exC4Clause) n = some s ∧
      strPref "@level_num" n = false := by
    intro a ha
    have ha2 : a = Arg.var "x" := by simpa using ha
    exact ⟨"x", 0, ha2, by decide, by decide⟩
  have h := negated_literal_block_semantics exC4Clause envDbFalse "r" [.var "x"]
    (by decide) hargs
  simpa [envDbFalse] using h

/-- Claim C7.  Subroutine argument slots are assigned in two passes — pass 1
numbers the clause's variables in first-encounter order from slot 0,
skipping internal level counters and internal underscore placeholders;
pass 2 appends every underscore-marked occurrence in encounter order — so
the built map equals the spec-side listing `specSlots`; when the underscore
occurrences are distinct each variable receives exactly one slot; and the
clause `p(X,Y) :- q(X,Y), r(_)` yields slot 0 = X, slot 1 = Y, slot 2 = the
underscore variable. -/
theorem slot_assignment_two_pass (occs : List String)
    (hund : (occs.filter (fun v => strPref "+underscore" v)).Nodup) :
    buildIdx occs = specSlots occs ∧
    ((buildIdx occs).map Prod.snd).Nodup ∧
    clauseIdx exC7Clause = [(0, "X"), (1, "Y"), (2, "+underscore0")] :=
  ⟨buildIdx_eq occs, buildIdx_snd_nodup occs hund, by decide⟩

/-- Witness for `slot_assignment_two_pass` on the slot-order contract
clause. -/
theorem slot_assignment_two_pass_witness :
    clauseIdx exC7Clause = [(0, "X"), (1, "Y"), (2, "+underscore0")] :=
  (slot_assignment_two_pass (clauseVarOccs exC7Clause) (by decide)).2.2

/-- Claim C8.  Every RAM relation descriptor built in provenance mode
carries the base relation's attributes followed by exactly the two trailing
attributes `@rule_number` and `@level_number`, has arity `arity(base) + 2`,
and its last two attribute type qualifiers are both `"i:number"`. -/
theorem createRamRelation_provenance_columns (qual : String → String)
    (base : AstRelation) (ramName : String) :
    (createRamRelation qual base ramName).arity = base.attrs.length + 2 ∧
    (createRamRelation qual base ramName).attributeNames.take base.attrs.length =
      base.attrs.map Prod.fst ∧
    (createRamRelation qual base ramName).attributeNames.drop base.attrs.length =
      ["@rule_number", "@level_number"] ∧
    (createRamRelation qual base ramName).attributeTypeQualifiers.drop
      base.attrs.length = ["i:number", "i:number"] ∧
    (createRamRelation qual base ramName).attributeNames.length =
      base.attrs.length + 2 ∧
    (createRamRelation qual base ramName).attributeTypeQualifiers.length =
      base.attrs.length + 2 := by
  refine ⟨rfl, ?_, ?_, ?_, ?_, ?_⟩
  · show (base.attrs.map Prod.fst ++ _).take base.attrs.length = _
    exact List.take_left' (by simp)
  · show (base.attrs.map Prod.fst ++ _).drop base.attrs.length = _
    exact List.drop_left' (by simp)
  · show (base.attrs.map (fun a => qual a.2) ++ _).drop base.attrs.length = _
    exact List.drop_left' (by simp)
  · simp [createRamRelation]
  · simp [createRamRelation]

/-- Every list member admits a split at its first occurrence. -/
theorem exists_first_split {α : Type} [DecidableEq α] {l : List α} {a : α}
    (h : a ∈ l) : ∃ u v, l = u ++ a :: v ∧ a ∉ u := by
  induction l with
  | nil => cases h
  | cons b rest ih =>
    by_cases hb : b = a
    · exact ⟨[], rest, by simp [hb], by simp⟩
    · rcases List.mem_cons.mp h with rfl | hmem
      · exact absurd rfl hb
      · obtain ⟨u, v, rfl, hnu⟩ := ih hmem
        refine ⟨b :: u, v, rfl, ?_⟩
        intro hmem2
        rcases List.mem_cons.mp hmem2 with rfl | hmem3
        · exact hb rfl
        · exact hnu hmem3

/-- Splitting a list at an element absent from both left parts is unique. -/
theorem first_split_unique {α : Type} {l₁ l₂ m₁ m₂ : List α} {a : α}
    (h : l₁ ++ a :: l₂ = m₁ ++ a :: m₂) (h1 : a ∉ l₁) (h2 : a ∉ m₁) :
    l₁ = m₁ ∧ l₂ = m₂ := by
  induction l₁ generalizing m₁ with
  | nil =>
    cases m₁ with
    | nil => simpa using h
    | cons b mrest =>
      exfalso
      have hb : a = b := by
        have := congrArg (fun l => l.head?) h
        simpa using this
      exact h2 (hb ▸ List.mem_cons_self b mrest)
  | cons b lrest ih =>
    cases m₁ with
    | nil =>
      exfalso
      have hb : b = a := by
        have := congrArg (fun l => l.head?) h
        simpa using this
      exact h1 (hb ▸ List.mem_cons_self b lrest)
    | cons c mrest =>
      have hbc : b = c := by
        have := congrArg (fun l => l.head?) h
        simpa using this
      subst hbc
      have htail : lrest ++ a :: l₂ = mrest ++ a :: m₂ := by
        have := congrArg List.tail h
        simpa using this
      have h1r : a ∉ lrest := fun hm => h1 (List.mem_cons_of_mem b hm)
      have h2r : a ∉ mrest := fun hm => h2 (List.mem_cons_of_mem b hm)
      obtain ⟨he, ht⟩ := ih htail h1r h2r
      exact ⟨by rw [he], ht⟩

/-- The spec-modelled clause-number walk returns `k` plus the number of
non-fact clauses preceding the clause's first occurrence. -/
theorem freeClauseNumWalk_eq (cl : Clause) (u v : List Clause) (k : Nat)
    (hu : cl ∉ u) (hcl : isFact cl = false) :
    freeClauseNumWalk cl k (u ++ cl :: v) =
      k + (u.filter (fun c => !isFact c)).length := by
  induction u generalizing k with
  | nil => simp [freeClauseNumWalk, hcl]
  | cons c rest ih =>
    have hc : ¬ c = cl := fun h => hu (h ▸ List.mem_cons_self c rest)
    have hrest : cl ∉ rest := fun hm => hu (List.mem_cons_of_mem c hm)
    cases hf : isFact c with
    | true => simp [freeClauseNumWalk, hc, hf, ih k hrest]
    | false =>
      simp [freeClauseNumWalk, hc, hf, ih (k + 1) hrest, List.filter_cons]
      omega

/-- Claim C9, amended.  For a non-fact clause whose head relation name does
not start with `"info"`, exactly the two labels
`"<relation>_<clauseNum>_subproof"` and
`"<relation>_<clauseNum>_negation_subproof"` are registered, with
`<clauseNum>` the clause's 1-based position among its relation's non-fact
clauses in declaration order; fact clauses and clauses of `"info"`-prefixed
relations register nothing; and the subroutine table is the concatenation of
the per-clause registrations in program order. -/
theorem subroutine_labels_per_clause (P : Program) (c : Clause)
    (pre post : List Clause)
    (hsplit : nonFactClausesOf P c.headRel = pre ++ c :: post)
    (hpre : c ∉ pre) (hinfo : strPref "info" c.headRel = false) :
    clauseSubroutineLabels P c =
      [c.headRel ++ "_" ++ toString (pre.length + 1) ++ "_subproof",
       c.headRel ++ "_" ++ toString (pre.length + 1) ++ "_negation_subproof"] ∧
    (∀ c2 : Clause, isFact c2 = true ∨ strPref "info" c2.headRel = true →
      clauseSubroutineLabels P c2 = []) ∧
    addProvenanceClauseSubroutines P = P.clauses.flatMap (clauseSubroutineLabels P) := by
  have hmemnf : c ∈ nonFactClausesOf P c.headRel := by
    rw [hsplit]
    exact List.mem_append.mpr (Or.inr (List.mem_cons_self c post))
  have hcf : isFact c = false := by
    have := List.of_mem_filter hmemnf
    simpa using this
  have hmemfull : c ∈ getClauses P c.headRel := List.mem_of_mem_filter hmemnf
  obtain ⟨u, v, hfull, hu⟩ := exists_first_split hmemfull
  have hfilter : (u.filter (fun d => !isFact d)) ++ c ::
      (v.filter (fun d => !isFact d)) = pre ++ c :: post := by
    have : nonFactClausesOf P c.headRel =
        (u.filter (fun d => !isFact d)) ++ c :: (v.filter (fun d => !isFact d)) := by
      rw [nonFactClausesOf, hfull]
      simp [List.filter_append, List.filter_cons, hcf]
    rw [← this, hsplit]
  have hufilter : c ∉ u.filter (fun d => !isFact d) :=
    fun hm => hu (List.mem_of_mem_filter hm)
  have hpreeq : u.filter (fun d => !isFact d) = pre :=
    (first_split_unique hfilter hufilter hpre).1
  have hnum : specClauseNum P c = pre.length + 1 := by
    rw [specClauseNum, hfull, freeClauseNumWalk_eq c u v 1 hu hcf, hpreeq]
    omega
  refine ⟨?_, ?_, rfl⟩
  · simp [clauseSubroutineLabels, hinfo, hcf, hnum]
  · intro c2 h2
    rcases h2 with h2 | h2 <;> simp [clauseSubroutineLabels, h2]

/-- Witness for `subroutine_labels_per_clause`: in the program holding the
fact `p().` and the rule `p() :- q().`, the rule registers the labels
`p_1_subproof` and `p_1_negation_subproof`. -/
theorem subroutine_labels_per_clause_witness :
    clauseSubroutineLabels exProgram exRule =
      ["p_1_subproof", "p_1_negation_subproof"] :=
  (subroutine_labels_per_clause exProgram exRule [] [] (by decide) (by decide)
    (by decide)).1

/-- Claim C9 counterexample.  The claim says every non-fact clause of every
relation that is not itself an info relation registers two subroutines.  The
relation `info_extra` is no info relation — its name contains no `"@info"`
segment — yet because its name starts with `"info"`, the code registers no
subroutines for its non-fact clause. -/
theorem info_named_relation_skipped_cex :
    addProvenanceClauseSubroutines exC9Program = [] ∧
    isFact exC9Clause = false ∧
    exC9Clause ∈ exC9Program.clauses ∧
    strContainsSub "@info" exC9Clause.headRel = false := by
  decide

end Theorems

namespace RecTheorems

open RecClauses

/-- A non-null successor edge always points at a declared relation. -/
theorem succEdges_some_lookup (P : Program) (r : Relation) (n : String)
    (hq : some n ∈ succEdges P r) : ∃ r2, lookupRel P n = some r2 := by
  rcases List.mem_append.mp hq with h | h
  · obtain ⟨t, ht, hmatch⟩ := List.mem_filterMap.mp h
    cases hl : lookupRel P t with
    | none => rw [hl] at hmatch; cases hmatch
    | some e =>
      rw [hl] at hmatch
      by_cases he : e.representation = RelRepr.eqrelType
      · have hen : e.name = n := by simpa [he] using hmatch
        have hent : e.name = t := by
          have := List.find?_some hl
          simpa using this
        refine ⟨e, ?_⟩
        rw [← hen, hent]
        exact hl
      · simp [he] at hmatch
  · obtain ⟨cl, hcl, hmem2⟩ := List.mem_flatMap.mp h
    obtain ⟨a, ha, hlp⟩ := List.mem_map.mp hmem2
    rw [lookupPtr] at hlp
    cases hl : lookupRel P a with
    | none => rw [hl] at hlp; cases hlp
    | some r2 =>
      rw [hl] at hlp
      have hn : r2.name = n := by simpa using hlp
      have hna : r2.name = a := by
        have := List.find?_some hl
        simpa using this
      refine ⟨r2, ?_⟩
      rw [← hn, hna]
      exact hl

/-- Once the worklist is empty, no reached relation (as witnessed by a
closed invariant) reaches the target. -/
theorem closed_reached_not_reaches (P : Program) (trg : Option String)
    (reached : List String)
    (hinv : ∀ n ∈ reached, some n ≠ trg ∧ ∃ r, lookupRel P n = some r ∧
      (¬ trg ∈ succEdges P r) ∧
      ∀ q ∈ succEdges P r, q = none ∨ ∃ m, q = some m ∧ m ∈ reached) :
    ∀ p, Reaches P trg p → ∀ m, p = some m → m ∈ reached → False := by
  intro p hre
  induction hre with
  | refl =>
    intro m hm hmem
    exact (hinv m hmem).1 hm.symm
  | @step n r q hr hq hrec ih =>
    intro m hm hmem
    injection hm with hnm
    subst hnm
    obtain ⟨hne, r2, hr2, htrg, hsucc⟩ := hinv n hmem
    rw [hr] at hr2
    injection hr2 with hrr
    subst hrr
    rcases hsucc q hq with hqn | ⟨m2, rfl, hm2⟩
    · subst hqn
      cases hrec with
      | refl => exact htrg hq
    · exact ih m2 rfl hm2

/-- One-step unfolding: popping an already-reached relation skips it. -/
theorem loopSearch_unfold_mem (P : Program) (trg : Option String)
    (reached : List String) (n : String) (rest : List (Option String))
    (hmem : n ∈ reached) :
    loopSearch P trg reached (some n :: rest) = loopSearch P trg reached rest := by
  simp only [loopSearch]
  rw [dif_pos hmem]

/-- One-step unfolding: popping an undeclared relation skips it. -/
theorem loopSearch_unfold_none (P : Program) (trg : Option String)
    (reached : List String) (n : String) (rest : List (Option String))
    (hmem : ¬ n ∈ reached) (hrel : lookupRel P n = none) :
    loopSearch P trg reached (some n :: rest) = loopSearch P trg reached rest := by
  simp only [loopSearch]
  rw [dif_neg hmem]
  split
  · rfl
  · next r heq => rw [hrel] at heq; cases heq

/-- One-step unfolding: the target among the popped relation's successors
answers true. -/
theorem loopSearch_unfold_found (P : Program) (trg : Option String)
    (reached : List String) (n : String) (rest : List (Option String))
    (r : Relation) (hmem : ¬ n ∈ reached) (hrel : lookupRel P n = some r)
    (hf : trg ∈ succEdges P r) :
    loopSearch P trg reached (some n :: rest) = true := by
  simp only [loopSearch]
  rw [dif_neg hmem]
  split
  · next heq => rw [hrel] at heq; cases heq
  · next r2 heq =>
    rw [hrel] at heq
    injection heq with hrr
    subst hrr
    rw [if_pos hf]

/-- One-step unfolding: processing a declared, unreached relation whose
successors miss the target marks it reached and pushes its successors. -/
theorem loopSearch_unfold_step (P : Program) (trg : Option String)
    (reached : List String) (n : String) (rest : List (Option String))
    (r : Relation) (hmem : ¬ n ∈ reached) (hrel : lookupRel P n = some r)
    (hf : ¬ trg ∈ succEdges P r) :
    loopSearch P trg reached (some n :: rest) =
      loopSearch P trg (n :: reached) (rest ++ succEdges P r) := by
  simp only [loopSearch]
  rw [dif_neg hmem]
  split
  · next heq => rw [hrel] at heq; cases heq
  · next r2 heq =>
    rw [hrel] at heq
    injection heq with hrr
    subst hrr
    rw [if_neg hf]

/-- Soundness of the worklist loop: if it answers true, some worklist entry
reaches the target. -/
theorem loopSearch_sound (P : Program) (trg : Option String)
    (reached : List String) (wl : List (Option String))
    (h : loopSearch P trg reached wl = true) :
    ∃ p ∈ wl, Reaches P trg p := by
  induction reached, wl using loopSearch.induct P trg with
  | case1 reached => simp [loopSearch] at h
  | case2 reached rest ih =>
    obtain ⟨p, hp, hre⟩ := ih (by simpa [loopSearch] using h)
    exact ⟨p, List.mem_cons_of_mem none hp, hre⟩
  | case3 reached n rest hmem ih =>
    rw [loopSearch_unfold_mem P trg reached n rest hmem] at h
    obtain ⟨p, hp, hre⟩ := ih h
    exact ⟨p, List.mem_cons_of_mem _ hp, hre⟩
  | case4 reached n rest hmem hrel ih =>
    rw [loopSearch_unfold_none P trg reached n rest hmem hrel] at h
    obtain ⟨p, hp, hre⟩ := ih h
    exact ⟨p, List.mem_cons_of_mem _ hp, hre⟩
  | case5 reached n rest hmem r hrel hfound =>
    exact ⟨some n, List.mem_cons_self _ _, Reaches.step hrel hfound Reaches.refl⟩
  | case6 reached n rest hmem r hrel hmiss ih =>
    rw [loopSearch_unfold_step P trg reached n rest r hmem hrel hmiss] at h
    obtain ⟨p, hp, hre⟩ := ih h
    rcases List.mem_append.mp hp with hp2 | hp2
    · exact ⟨p, List.mem_cons_of_mem _ hp2, hre⟩
    · exact ⟨some n, List.mem_cons_self _ _, Reaches.step hrel hp2 hre⟩

/-- Completeness of the worklist loop: if it answers false under the loop
invariant, nothing on the worklist (nor anything reached) reaches the
target. -/
theorem loopSearch_complete (P : Program) (trg : Option String)
    (reached : List String) (wl : List (Option String))
    (hinv : LoopInv P trg reached wl) (h : loopSearch P trg reached wl = false) :
    ∀ p, (p ∈ wl ∨ ∃ m, p = some m ∧ m ∈ reached) → ¬ Reaches P trg p := by
  induction reached, wl using loopSearch.induct P trg with
  | case1 reached =>
    intro p hp hre
    rcases hp with hp | ⟨m, rfl, hm⟩
    · cases hp
    · refine closed_reached_not_reaches P trg reached ?_ _ hre m rfl hm
      intro n hn
      obtain ⟨hne, r, hr, htrg, hsucc⟩ := hinv.2 n hn
      refine ⟨hne, r, hr, htrg, ?_⟩
      intro q hq
      rcases hsucc q hq with h0 | h0 | h0
      · exact Or.inl h0
      · cases h0
      · exact Or.inr h0
  | case2 reached rest ih =>
    have hinv2 : LoopInv P trg reached rest := by
      refine ⟨fun ht => hinv.1 (List.mem_cons_of_mem none ht), ?_⟩
      intro n hn
      obtain ⟨hne, r, hr, htrg, hsucc⟩ := hinv.2 n hn
      refine ⟨hne, r, hr, htrg, ?_⟩
      intro q hq
      rcases hsucc q hq with h0 | h0 | h0
      · exact Or.inl h0
      · rcases List.mem_cons.mp h0 with rfl | h1
        · exact Or.inl rfl
        · exact Or.inr (Or.inl h1)
      · exact Or.inr (Or.inr h0)
    have hrec := ih hinv2 (by simpa [loopSearch] using h)
    intro p hp hre
    rcases hp with hp | hp
    · rcases List.mem_cons.mp hp with rfl | hp2
      · cases hre with
        | refl => exact hinv.1 (List.mem_cons_self _ _)
      · exact hrec p (Or.inl hp2) hre
    · exact hrec p (Or.inr hp) hre
  | case3 reached n rest hmem ih =>
    have hinv2 : LoopInv P trg reached rest := by
      refine ⟨fun ht => hinv.1 (List.mem_cons_of_mem _ ht), ?_⟩
      intro m hm
      obtain ⟨hne, r, hr, htrg, hsucc⟩ := hinv.2 m hm
      refine ⟨hne, r, hr, htrg, ?_⟩
      intro q hq
      rcases hsucc q hq with h0 | h0 | h0
      · exact Or.inl h0
      · rcases List.mem_cons.mp h0 with rfl | h1
        · exact Or.inr (Or.inr ⟨n, rfl, hmem⟩)
        · exact Or.inr (Or.inl h1)
      · exact Or.inr (Or.inr h0)
    rw [loopSearch_unfold_mem P trg reached n rest hmem] at h
    have hrec := ih hinv2 h
    intro p hp hre
    rcases hp with hp | hp
    · rcases List.mem_cons.mp hp with rfl | hp2
      · exact hrec _ (Or.inr ⟨n, rfl, hmem⟩) hre
      · exact hrec p (Or.inl hp2) hre
    · exact hrec p (Or.inr hp) hre
  | case4 reached n rest hmem hrel ih =>
    have hinv2 : LoopInv P trg reached rest := by
      refine ⟨fun ht => hinv.1 (List.mem_cons_of_mem _ ht), ?_⟩
      intro m hm
      obtain ⟨hne, r, hr, htrg, hsucc⟩ := hinv.2 m hm
      refine ⟨hne, r, hr, htrg, ?_⟩
      intro q hq
      rcases hsucc q hq with h0 | h0 | h0
      · exact Or.inl h0
      · rcases List.mem_cons.mp h0 with rfl | h1
        · obtain ⟨r2, hr2⟩ := succEdges_some_lookup P r n hq
          rw [hrel] at hr2
          cases hr2
        · exact Or.inr (Or.inl h1)
      · exact Or.inr (Or.inr h0)
    rw [loopSearch_unfold_none P trg reached n rest hmem hrel] at h
    have hrec := ih hinv2 h
    intro p hp hre
    rcases hp with hp | hp
    · rcases List.mem_cons.mp hp with rfl | hp2
      · cases hre with
        | refl => exact hinv.1 (List.mem_cons_self _ _)
        | step hr2 hq2 hrec2 =>
          rw [hrel] at hr2
          cases hr2
      · exact hrec p (Or.inl hp2) hre
    · exact hrec p (Or.inr hp) hre
  | case5 reached n rest hmem r hrel hfound =>
    rw [loopSearch_unfold_found P trg reached n rest r hmem hrel hfound] at h
    exact absurd h (by decide)
  | case6 reached n rest hmem r hrel hmiss ih =>
    have hinv2 : LoopInv P trg (n :: reached) (rest ++ succEdges P r) := by
      constructor
      · intro ht
        rcases List.mem_append.mp ht with h1 | h1
        · exact hinv.1 (List.mem_cons_of_mem _ h1)
        · exact hmiss h1
      · intro m hm
        rcases List.mem_cons.mp hm with rfl | hm2
        · refine ⟨fun h1 => hinv.1 (h1 ▸ List.mem_cons_self _ _), r, hrel, hmiss, ?_⟩
          intro q hq
          exact Or.inr (Or.inl (List.mem_append_right rest hq))
        · obtain ⟨hne, r2, hr2, htrg, hsucc⟩ := hinv.2 m hm2
          refine ⟨hne, r2, hr2, htrg, ?_⟩
          intro q hq
          rcases hsucc q hq with h0 | h0 | h0
          · exact Or.inl h0
          · rcases List.mem_cons.mp h0 with rfl | h1
            · exact Or.inr (Or.inr ⟨n, rfl, List.mem_cons_self _ _⟩)
            · exact Or.inr (Or.inl (List.mem_append_left _ h1))
          · obtain ⟨m2, rfl, hm3⟩ := h0
            exact Or.inr (Or.inr ⟨m2, rfl, List.mem_cons_of_mem _ hm3⟩)
    rw [loopSearch_unfold_step P trg reached n rest r hmem hrel hmiss] at h
    have hrec := ih hinv2 h
    intro p hp hre
    rcases hp with hp | hp
    · rcases List.mem_cons.mp hp with rfl | hp2
      · exact hrec _ (Or.inr ⟨n, rfl, List.mem_cons_self _ _⟩) hre
      · exact hrec p (Or.inl (List.mem_append_left _ hp2)) hre
    · obtain ⟨m, rfl, hm⟩ := hp
      exact hrec _ (Or.inr ⟨m, rfl, List.mem_cons_of_mem _ hm⟩) hre

/-- Claim C5.  `isRecursiveClause` returns true iff some body atom's
relation can transitively reach the clause's head relation, where
reachability follows the body atoms of clauses of reached relations and
additionally includes, for each reached relation, a one-hop edge from any
attribute whose type names a relation with representation `EQREL_TYPE` to
that relation itself; a body atom directly on the head's own relation is
the reflexive case of `Reaches` and makes the clause recursive. -/
theorem isRecursiveClause_iff_reaches (P : Program) (c : Clause) :
    isRecursiveClause P c = true ↔
      ∃ p ∈ bodyAtomPtrs P c, Reaches P (lookupPtr P c.headRel) p := by
  rw [isRecursiveClause, computeIsRecursive]
  by_cases hin : lookupPtr P c.headRel ∈ bodyAtomPtrs P c
  · rw [if_pos hin]
    exact ⟨fun _ => ⟨_, hin, Reaches.refl⟩, fun _ => rfl⟩
  · rw [if_neg hin]
    constructor
    · intro h
      exact loopSearch_sound P _ [] _ h
    · rintro ⟨p, hp, hre⟩
      by_contra hfalse
      have hb : loopSearch P (lookupPtr P c.headRel) [] (bodyAtomPtrs P c) = false :=
        Bool.eq_false_iff.mpr hfalse
      exact loopSearch_complete P _ [] _
        ⟨hin, fun n hn => absurd hn (List.not_mem_nil n)⟩ hb p (Or.inl hp) hre

end RecTheorems

namespace ReifyTheorems

open Reify

/-- The changed flag after the type loop: the incoming flag, or some type
declaration is an eqrel or poset type. -/
theorem typeLoop_changed (ts : List TypeDecl) (st : LoopState) :
    (typeLoop st ts).changed = (st.changed || ts.any isEqrelOrPoset) := by
  induction ts generalizing st with
  | nil => simp [typeLoop]
  | cons t rest ih =>
    cases t <;>
      simp [typeLoop, processType, ih, isEqrelOrPoset, Bool.or_assoc]

/-- Without eqrel or poset declarations the type loop changes nothing. -/
theorem typeLoop_id (ts : List TypeDecl) (st : LoopState)
    (h : ∀ t ∈ ts, isEqrelOrPoset t = false) : typeLoop st ts = st := by
  induction ts generalizing st with
  | nil => rfl
  | cons t rest ih =>
    have ht := h t (List.mem_cons_self t rest)
    cases t with
    | eqrel a b => simp [isEqrelOrPoset] at ht
    | poset a b => simp [isEqrelOrPoset] at ht
    | other a =>
      show typeLoop (processType st (.other a)) rest = st
      exact ih st (fun t2 ht2 => h t2 (List.mem_cons_of_mem _ ht2))

/-- With empty eqrel and poset sets the rule-construction loop changes
nothing. -/
theorem relLoop_id (rels : List Relation) (prog : Program) :
    relLoop [] [] prog rels = prog := by
  induction rels generalizing prog with
  | nil => rfl
  | cons r rest ih =>
    show relLoop [] [] (processRel [] [] prog r) rest = prog
    have hpr : processRel [] [] prog r = prog := by
      simp [processRel, hasEquivalence]
    rw [hpr]
    exact ih prog

/-- Claim C10.  `ReifyEquivalencesTransformer::transform` returns true iff
the program declares at least one eqrel type or poset type, and whenever it
returns false the program is left unchanged — no relations and no clauses
are added. -/
theorem reify_changed_iff_unchanged (P : Program) :
    ((reifyTransform P).1 = true ↔ ∃ t ∈ P.types, isEqrelOrPoset t = true) ∧
    ((reifyTransform P).1 = false → (reifyTransform P).2 = P) := by
  have hfst : (reifyTransform P).1 =
      (typeLoop ⟨P, [], [], false⟩ P.types).changed := rfl
  constructor
  · rw [hfst, typeLoop_changed]
    simp [List.any_eq_true]
  · intro h
    rw [hfst, typeLoop_changed] at h
    have hany : P.types.any isEqrelOrPoset = false := by simpa using h
    have hnone : ∀ t ∈ P.types, isEqrelOrPoset t = false := by
      intro t ht
      by_contra h2
      have h3 : P.types.any isEqrelOrPoset = true :=
        List.any_eq_true.mpr ⟨t, ht, by simpa using h2⟩
      rw [h3] at hany
      cases hany
    have hst : typeLoop ⟨P, [], [], false⟩ P.types = ⟨P, [], [], false⟩ :=
      typeLoop_id P.types _ hnone
    have hsnd : (reifyTransform P).2 =
        relLoop (typeLoop ⟨P, [], [], false⟩ P.types).eqrels
          (typeLoop ⟨P, [], [], false⟩ P.types).posets
          (typeLoop ⟨P, [], [], false⟩ P.types).prog
          (typeLoop ⟨P, [], [], false⟩ P.types).prog.relations := rfl
    rw [hsnd, hst]
    exact relLoop_id P.relations P

/-- Witness for `reify_changed_iff_unchanged` on a program with no eqrel or
poset declarations: the transformer reports no change and returns the
program unchanged. -/
theorem reify_changed_iff_unchanged_witness :
    (reifyTransform exReifyProgram).1 = false ∧
    (reifyTransform exReifyProgram).2 = exReifyProgram := by
  have h := reify_changed_iff_unchanged exReifyProgram
  have h1 : (reifyTransform exReifyProgram).1 = false := by decide
  exact ⟨h1, h.2 h1⟩

end ReifyTheorems

end Souffle
